import Mathlib

/-!
Verification development for the pragcc parallelization engine.

The repository ships its test suite (src/tests/pragcc_parallelizer.py) and an
HTTP endpoint (src/api/apis/compiler.py); the core package pragcc.core is not
part of the sources at hand.  The core operations are therefore modelled from
the specification, with their observable behavior pinned to what the in-repo
test suite asserts; each such definition is marked `Modelled from the spec:`.
The HTTP endpoint is embedded directly from its source file.
-/

set_option maxHeartbeats 1000000

namespace Pragcc

/-- Characters of a string split at newline characters; the accumulator holds
the current (reversed) line. -/
def splitAux : List Char → List Char → List (List Char)
  | [], acc => [acc.reverse]
  | c :: cs, acc =>
      if c = '\n' then acc.reverse :: splitAux cs []
      else splitAux cs (c :: acc)

/-- Model of Python `str.splitlines` restricted to the newline separator: the
string is cut at each newline and a final empty fragment is dropped, so a
trailing newline produces no trailing empty line and the empty string yields
no lines at all. -/
def splitlines (s : String) : List String :=
  let parts := splitAux s.data []
  (if parts.getLast? = some [] then parts.dropLast else parts).map
    (fun cs => String.mk cs)

/-- Join a list of lines with newline separators. -/
def joinLines : List String → String
  | [] => ""
  | [l] => l
  | l :: l2 :: ls => l ++ "\n" ++ joinLines (l2 :: ls)

/-- Modelled from the spec: a target position of an insertion is valid when
`1 ≤ k ≤ n + 1` where `n` is the original line count; append is allowed at
`n + 1` and anything negative, zero or beyond `n + 1` is invalid. -/
def validPos (n : Nat) (k : Int) : Bool :=
  decide (1 ≤ k ∧ k ≤ (n : Int) + 1)

/-- Insertion targets converted to natural numbers (meaningful once the batch
has been validated, since valid targets are at least 1). -/
def toNatIns (ins : List (String × Int)) : List (String × Nat) :=
  ins.map (fun p => (p.1, p.2.toNat))

/-- The texts of the insertions whose target is exactly `k`, in supplied
order. -/
def textsAt (ins : List (String × Nat)) (k : Nat) : List String :=
  (ins.filter (fun p => p.2 == k)).map Prod.fst

/-- The texts of the insertions whose target is at least `k`, in supplied
order. -/
def textsFrom (ins : List (String × Nat)) (k : Nat) : List String :=
  (ins.filter (fun p => decide (k ≤ p.2))).map Prod.fst

/-- Modelled from the spec: the successful interleaving of original lines and
insertion texts.  Insertions are applied in ascending target-line order, an
insertion targeting line `k` lands immediately after original line `k` (lines
counted from 1; equivalently before 0-based line `k`, matching the worked
example of the test suite where target 1 becomes output line index 1), ties
keep their supplied order, and any target one past the final gap appends at
the very end. -/
def weave (ins : List (String × Nat)) : List String → Nat → List String
  | [], p => textsFrom ins (p + 1)
  | l :: rest, p => l :: (textsAt ins (p + 1) ++ weave ins rest (p + 1))

namespace BaseParallelizer

/-- Modelled from the spec: `pragcc.core.parallelizer.BaseParallelizer.insert_lines`
(absent from src; behavior fixed by §4.3 of the spec and by
`TestBaseParallelizer` in src/tests/pragcc_parallelizer.py).  Validation is
all-or-nothing: if the raw text is empty the call fails, and if any single
target is out of range the whole batch is rejected; failure is the empty
string sentinel, never a raised fault.  On success the batch is woven into
the original lines with cumulative downward shift. -/
def insert_lines (raw : String) (insertions : List (String × Int)) : String :=
  let lines := splitlines raw
  if lines.isEmpty then ""
  else if insertions.all (fun p => validPos lines.length p.2) then
    joinLines (weave (toNatIns insertions) lines 0)
  else ""

end BaseParallelizer

/-- Modelled from the spec: the error taxonomy of §7.  The concrete code
signals `malformedSource` as an IndexError and `unsupportedType` as a
pycparser ParseError; the spec names are used here. -/
inductive PErr
  | malformedSource
  | unsupportedType
  | parallelizationFailed
  | notImplementedCapability
  | functionLookup (name : String)
  | loopLookup (n : Nat)
  deriving DecidableEq, Repr

/-- Modelled from the spec: the abstract line classification performed by the
structural front end.  `inc` is an include directive carrying its header
name, `defn` a define directive, `fnHeader` the opening line of a function
definition carrying the function name, `mainHeader` the opening line of
`main`, `loopHeader` a loop header inside a body, `boolStmt` a body statement
using the boolean type (the feature the lightweight preprocessor cannot
resolve natively), and `stmt` any other body line. -/
inductive CLine
  | inc (header : String)
  | defn (text : String)
  | fnHeader (name : String)
  | mainHeader
  | loopHeader (text : String)
  | boolStmt (text : String)
  | stmt (text : String)
  deriving DecidableEq, Repr

namespace CLine

/-- Rendering of an abstract line back to source text. -/
def lineText : CLine → String
  | .inc h => "#include <" ++ h ++ ">"
  | .defn t => t
  | .fnHeader n => "void " ++ n ++ "() \x7b"
  | .mainHeader => "int main() \x7b"
  | .loopHeader t => t
  | .boolStmt t => t
  | .stmt t => t

end CLine

/-- Whether the first list of characters is a prefix of the second. -/
def startsWithS (s pre : String) : Bool :=
  pre.data.isPrefixOf s.data

/-- Modelled from the spec: classification of one raw source line into the
abstract line model (the front end's lexical view).  Pragma lines and closing
braces classify as plain body statements. -/
def parseLine (s : String) : CLine :=
  if startsWithS s "#include <" then
    .inc (String.mk ((s.data.drop 10).takeWhile (fun c => c != '>')))
  else if startsWithS s "#define" then .defn s
  else if startsWithS s "int main" then .mainHeader
  else if startsWithS s "for" then .loopHeader s
  else if startsWithS s "void " then
    .fnHeader (String.mk ((s.data.drop 5).takeWhile (fun c => c != '(')))
  else if startsWithS s "bool " then .boolStmt s
  else .stmt s

/-- A prologue line is an include or a define. -/
def isPrologueLine : CLine → Bool
  | .inc _ => true
  | .defn _ => true
  | _ => false

/-- A body line is a loop header, a boolean statement or a plain statement. -/
def isBody : CLine → Bool
  | .loopHeader _ => true
  | .boolStmt _ => true
  | .stmt _ => true
  | _ => false

/-- A loop header line. -/
def isLoop : CLine → Bool
  | .loopHeader _ => true
  | _ => false

/-- The recognizer's progress through the canonical section ordering. -/
inductive SMode
  | atStart
  | inProl
  | inFuncs
  | inMain
  deriving DecidableEq, Repr

/-- Modelled from the spec: the canonical-section recognizer.  Starting at
`atStart` the document must open with a non-empty prologue of includes and
defines, continue with zero or more function definitions (a header line
followed by body lines), and end with exactly one main section (a main header
followed by body lines); the document is well formed exactly when the run
ends inside the main section. -/
def structureOk : List CLine → SMode → Bool
  | [], m => m == .inMain
  | l :: ls, .atStart =>
      if isPrologueLine l then structureOk ls .inProl else false
  | l :: ls, .inProl =>
      if isPrologueLine l then structureOk ls .inProl
      else
        match l with
        | .fnHeader _ => structureOk ls .inFuncs
        | .mainHeader => structureOk ls .inMain
        | _ => false
  | l :: ls, .inFuncs =>
      if isBody l then structureOk ls .inFuncs
      else
        match l with
        | .fnHeader _ => structureOk ls .inFuncs
        | .mainHeader => structureOk ls .inMain
        | _ => false
  | l :: ls, .inMain => if isBody l then structureOk ls .inMain else false

/-- A list of lines forming a sequence of function definitions: each block is
a function header followed by body lines. -/
inductive FuncBlocks : List CLine → Prop
  | nil : FuncBlocks []
  | block (name : String) (body rest : List CLine)
      (hbody : ∀ l ∈ body, isBody l = true)
      (hrest : FuncBlocks rest) :
      FuncBlocks (CLine.fnHeader name :: (body ++ rest))

/-- Declarative reading of the spec's canonical section ordering: the lines
decompose into a non-empty prologue of includes and defines, a sequence of
function definitions, and exactly one trailing main section. -/
def canDecompose (ls : List CLine) : Prop :=
  ∃ p f mb, ls = p ++ f ++ (CLine.mainHeader :: mb) ∧ p ≠ [] ∧
    (∀ l ∈ p, isPrologueLine l = true) ∧ FuncBlocks f ∧
    (∀ l ∈ mb, isBody l = true)

/-- The header names of the include lines, in order. -/
def includesOf (ls : List CLine) : List String :=
  ls.filterMap (fun l => match l with | .inc h => some h | _ => none)

/-- Modelled from the spec: the preprocessing adapter substitutes the first
two include lines of the document with the internal placeholder headers
`_fake_defines.h` and `_fake_typedefs.h`; it looks no further than those two
includes, so any later include survives untouched.  (Behavior fixed by the
bool-type tests of the test suite: the placeholders do not themselves supply
the boolean type, so a bool-providing header within the first two includes is
lost, while one at or after the third include is preserved.) -/
def fakeIncludes (hs : List String) : List String :=
  ["_fake_defines.h", "_fake_typedefs.h"].take hs.length ++ hs.drop 2

/-- Whether the document's body uses the boolean type. -/
def usesBool (ls : List CLine) : Bool :=
  ls.any (fun l => match l with | .boolStmt _ => true | _ => false)

/-- Whether, after the placeholder substitution, some surviving include
still provides the boolean type. -/
def boolAvailable (ls : List CLine) : Bool :=
  (fakeIncludes (includesOf ls)).contains "stdbool.h"

/-- Modelled from the spec: the parsed structural document (the section
decomposition and AST are recomputed on demand from the retained lines). -/
structure SourceDocument where
  lines : List CLine
  deriving DecidableEq, Repr

/-- Modelled from the spec: `StructuralParser.parse`.  The canonical section
ordering is checked first (failing with `malformedSource`, an IndexError in
the concrete code); then, if the body uses the boolean type and no include
surviving the placeholder substitution provides it, parsing fails with
`unsupportedType` (a pycparser ParseError in the concrete code). -/
def parse (ls : List CLine) : Except PErr SourceDocument :=
  if structureOk ls .atStart then
    if usesBool ls && !boolAvailable ls then .error .unsupportedType
    else .ok ⟨ls⟩
  else .error .malformedSource

/-- The raw text of a structural document. -/
def rawOf (d : SourceDocument) : String :=
  joinLines (d.lines.map CLine.lineText)

/-- AST information for one function: its name, the absolute (0-based) line
of the first line of its body, and the absolute lines of the loop headers
found in its body, all computed on the original unmodified document. -/
structure FuncInfo where
  name : String
  bodyStart : Nat
  loopLines : List Nat
  deriving DecidableEq, Repr

/-- The loop-header positions within the body region that follows a header
at position `i` (the body region is the maximal run of body lines). -/
def loopsAfter (ls : List CLine) (i : Nat) : List Nat :=
  (((ls.enum.drop (i + 1)).takeWhile (fun q => isBody q.2)).filter
    (fun q => isLoop q.2)).map Prod.fst

/-- Modelled from the spec: the function table of the AST.  Every function
definition and the main section contribute an entry (main under the name
"main"). -/
def funcInfos (ls : List CLine) : List FuncInfo :=
  ls.enum.filterMap (fun q =>
    match q.2 with
    | .fnHeader n => some ⟨n, q.1 + 1, loopsAfter ls q.1⟩
    | .mainHeader => some ⟨"main", q.1 + 1, loopsAfter ls q.1⟩
    | _ => none)

/-- Look up a function by name in the AST. -/
def findFunc (d : SourceDocument) (name : String) : Option FuncInfo :=
  (funcInfos d.lines).find? (fun f => f.name == name)

/-- Modelled from the spec: a directive's placement hint — at function entry,
or at the n-th loop header of the function body. -/
inductive LocationHint
  | entry
  | loopOffset (n : Nat)
  deriving DecidableEq, Repr

/-- Modelled from the spec: one desired directive — its name, its ordered
clauses (a clause is a key with an optional value), and its placement. -/
structure DirectiveSpec where
  directive : String
  clauses : List (String × Option String)
  loc : LocationHint
  deriving DecidableEq, Repr

/-- Modelled from the spec: the metadata maps function names to ordered lists
of directive entries. -/
abbrev Metadata := List (String × List DirectiveSpec)

namespace BaseParallelizer

/-- Modelled from the spec: the abstract capability `get_raw_pragma` of the
base parallelizer (no concrete dialect variant) fails with the
not-implemented-capability error. -/
def get_raw_pragma (_directive_name : String)
    (_clauses : List (String × Option String)) : Except PErr String :=
  .error .notImplementedCapability

/-- Modelled from the spec: the abstract capability `insert_directives` of
the base parallelizer fails with the not-implemented-capability error. -/
def insert_directives (_function_name : String)
    (_directives : List DirectiveSpec) : Except PErr (List (String × Int)) :=
  .error .notImplementedCapability

/-- Modelled from the spec: the abstract capability `parallelize` of the base
parallelizer fails with the not-implemented-capability error. -/
def parallelize (_metadata : Metadata) : Except PErr String :=
  .error .notImplementedCapability

end BaseParallelizer

namespace OpenMP

/-- Modelled from the spec: `OpenMP.get_raw_pragma` renders
`#pragma omp <directive> <clause...>`, each clause as `key(value)` when a
value is present and as a bare flag otherwise, preserving clause order. -/
def get_raw_pragma (directive_name : String)
    (clauses : List (String × Option String)) : String :=
  "#pragma omp " ++ directive_name ++
    String.join (clauses.map (fun c =>
      match c.2 with
      | some v => " " ++ c.1 ++ "(" ++ v ++ ")"
      | none => " " ++ c.1))

/-- The absolute target line of one directive relative to a function's AST
entry: function entry maps to the first body line, a loop offset to the n-th
loop header of the body (counted from 0). -/
def targetLine (f : FuncInfo) : LocationHint → Option Nat
  | .entry => some f.bodyStart
  | .loopOffset n => f.loopLines.get? n

/-- Resolution of the directives of one function into (text, line) pairs. -/
def resolveSpecs (f : FuncInfo) : List DirectiveSpec → Except PErr (List (String × Int))
  | [] => .ok []
  | s :: rest =>
      match targetLine f s.loc with
      | none =>
          .error (.loopLookup (match s.loc with | .loopOffset n => n | _ => 0))
      | some t =>
          match resolveSpecs f rest with
          | .ok l => .ok ((get_raw_pragma s.directive s.clauses, (t : Int)) :: l)
          | .error e => .error e

/-- Modelled from the spec: `OpenMP.insert_directives` locates the function
in the AST (failing with a lookup error when absent) and resolves each
directive to its pragma text and absolute target line on the original
document. -/
def insert_directives (d : SourceDocument) (function_name : String)
    (directives : List DirectiveSpec) : Except PErr (List (String × Int)) :=
  match findFunc d function_name with
  | none => .error (.functionLookup function_name)
  | some f => resolveSpecs f directives

/-- Accumulation of one insertion batch across every metadata entry. -/
def resolveBatch (d : SourceDocument) : Metadata → Except PErr (List (String × Int))
  | [] => .ok []
  | (fname, specs) :: rest =>
      match insert_directives d fname specs with
      | .error e => .error e
      | .ok b =>
          match resolveBatch d rest with
          | .ok bs => .ok (b ++ bs)
          | .error e => .error e

/-- Modelled from the spec: `OpenMP.parallelize` accumulates one insertion
batch across all directive specs, submits it atomically to the insertion
engine, wraps the successful result, and translates the engine's sentinel
batch failure into `parallelizationFailed`; no partial output is ever
surfaced. -/
def parallelize (d : SourceDocument) (md : Metadata) : Except PErr String :=
  match resolveBatch d md with
  | .error e => .error e
  | .ok batch =>
      let out := BaseParallelizer.insert_lines (rawOf d) batch
      if out = "" then .error .parallelizationFailed else .ok out

/-- Modelled from the spec: constructing the OpenMP parallelizer from raw
text eagerly parses it into a structural document. -/
def init (raw : String) : Except PErr SourceDocument :=
  parse ((splitlines raw).map parseLine)

end OpenMP

/-- The body of an HTTP response of the compiler endpoint: either the success
message dictionary or the raw diagnostics. -/
inductive RespBody
  | msg (m : String)
  | diag (d : String)
  deriving DecidableEq, Repr

/-- Embedded from src/api/apis/compiler.py, `Gcc.post`: the manager compiles
the raw code into `(stdout, stderror)`; a non-empty `stderror` yields the
diagnostics with status 400, otherwise the success message with status 200.
The compile checker itself is an external collaborator and is passed as a
function argument. -/
def gccPost (compile_raw_code : String → String × String)
    (raw_c_code : String) : RespBody × Nat :=
  let r := compile_raw_code raw_c_code
  if r.2 ≠ "" then (.diag r.2, 400)
  else (.msg "Compilation successfull !!", 200)

/-! ### Helper lemmas about the insertion engine -/

theorem beq_nat_eq_decide (m n : Nat) : (m == n) = decide (m = n) := by
  by_cases h : m = n <;> simp [h]

/-- Counting a filter whose predicate splits into two disjoint predicates. -/
theorem length_filter_split {α : Type} {P Q R : α → Bool}
    (hpt : ∀ a, (P a = true ↔ (Q a = true ∨ R a = true)) ∧
      ¬(Q a = true ∧ R a = true)) (l : List α) :
    (l.filter P).length = (l.filter Q).length + (l.filter R).length := by
  induction l with
  | nil => rfl
  | cons a l ih =>
      rcases hpt a with ⟨hiff, hnand⟩
      rw [List.filter_cons, List.filter_cons, List.filter_cons]
      cases hq : Q a <;> cases hr : R a
      · have hp : P a = false := by
          rw [← Bool.not_eq_true, hiff]
          simp [hq, hr]
        simp [hp, ih]
      · have hp : P a = true := hiff.mpr (Or.inr hr)
        simp [hp, ih]
        omega
      · have hp : P a = true := hiff.mpr (Or.inl hq)
        simp [hp, ih]
        omega
      · exact absurd ⟨hq, hr⟩ hnand

/-- Placement of one insertion inside the woven output: the insertion `(x, k)`
of the batch `a ++ (x, k) :: b` ends up at the index implied by cumulative
downward shift — its (clamped) gap position plus one slot for every insertion
applied before it, namely those at strictly smaller targets anywhere in the
batch and those at the same target that were supplied earlier. -/
theorem weave_get (lines : List String) (p : Nat) (a b : List (String × Nat))
    (x : String) (k : Nat) (hk : p + 1 ≤ k)
    (hbound : ∀ q ∈ a ++ (x, k) :: b, q.2 ≤ p + lines.length + 1) :
    (weave (a ++ (x, k) :: b) lines p)[(min k (p + lines.length) - p) +
        (a.filter (fun q => decide (p + 1 ≤ q.2 ∧ q.2 ≤ k))).length +
        (b.filter (fun q => decide (p + 1 ≤ q.2 ∧ q.2 < k))).length]? = some x := by
  induction lines generalizing p with
  | nil =>
      have hkx : k ≤ p + 1 := by simpa using hbound (x, k) (by simp)
      have hk1 : k = p + 1 := by omega
      subst hk1
      have hb0 : b.filter (fun q => decide (p + 1 ≤ q.2 ∧ q.2 < p + 1)) = [] := by
        rw [List.filter_eq_nil_iff]
        intro q _
        simp only [decide_eq_true_eq]
        omega
      have ha1 : a.filter (fun q => decide (p + 1 ≤ q.2 ∧ q.2 ≤ p + 1)) =
          a.filter (fun q => decide (p + 1 ≤ q.2)) := by
        apply List.filter_congr
        intro q hq
        have hqb : q.2 ≤ p + 1 := by
          simpa using hbound q (List.mem_append_left _ hq)
        exact decide_eq_decide.mpr (by omega)
      rw [ha1, hb0]
      simp only [weave, textsFrom, List.filter_append, List.filter_cons]
      have hx : decide (p + 1 ≤ (x, p + 1).2) = true := by simp
      rw [hx]
      simp only [List.map_append, List.length_nil, List.map_cons]
      rw [List.getElem?_append_right (by simp)]
      simp
  | cons l rest ih =>
      rcases eq_or_lt_of_le hk with hk1 | hk2
      · -- the insertion targets the very next gap
        subst hk1
        have hb0 : (b.filter
            (fun q => decide (p + 1 ≤ q.2 ∧ q.2 < p + 1))).length = 0 := by
          rw [List.length_eq_zero, List.filter_eq_nil_iff]
          intro q _
          simp only [decide_eq_true_eq]
          omega
        have ha1 : a.filter (fun q => decide (p + 1 ≤ q.2 ∧ q.2 ≤ p + 1)) =
            a.filter (fun q => q.2 == p + 1) := by
          apply List.filter_congr
          intro q _
          rw [beq_nat_eq_decide]
          exact decide_eq_decide.mpr (by omega)
        rw [ha1, hb0]
        have hidx : min (p + 1) (p + (l :: rest).length) - p +
            (a.filter (fun q => q.2 == p + 1)).length + 0 =
            (a.filter (fun q => q.2 == p + 1)).length + 1 := by
          simp only [List.length_cons]
          omega
        rw [hidx]
        simp only [weave, List.getElem?_cons_succ, textsAt, List.filter_append,
          List.filter_cons]
        have hx : ((x, p + 1).2 == p + 1) = true := by simp
        rw [hx]
        simp only [List.map_append, List.map_cons, List.append_assoc,
          List.cons_append]
        rw [List.getElem?_append_right (by simp)]
        simp
      · -- the insertion targets a later gap: recurse into the tail
        have hsa := length_filter_split
          (P := fun q : String × Nat => decide (p + 1 ≤ q.2 ∧ q.2 ≤ k))
          (Q := fun q : String × Nat => q.2 == p + 1)
          (R := fun q : String × Nat => decide (p + 2 ≤ q.2 ∧ q.2 ≤ k))
          (fun q => by
            simp only [beq_nat_eq_decide, decide_eq_true_eq]
            omega) a
        have hsb := length_filter_split
          (P := fun q : String × Nat => decide (p + 1 ≤ q.2 ∧ q.2 < k))
          (Q := fun q : String × Nat => q.2 == p + 1)
          (R := fun q : String × Nat => decide (p + 2 ≤ q.2 ∧ q.2 < k))
          (fun q => by
            simp only [beq_nat_eq_decide, decide_eq_true_eq]
            omega) b
        have htexts : (textsAt (a ++ (x, k) :: b) (p + 1)).length =
            (a.filter (fun q => q.2 == p + 1)).length +
              (b.filter (fun q => q.2 == p + 1)).length := by
          have hkx : ((x, k).2 == p + 1) = false := by
            rw [beq_nat_eq_decide]
            simp
            omega
          simp [textsAt, List.filter_append, List.filter_cons, hkx]
        have hidx : min k (p + (l :: rest).length) - p +
            (a.filter (fun q => decide (p + 1 ≤ q.2 ∧ q.2 ≤ k))).length +
            (b.filter (fun q => decide (p + 1 ≤ q.2 ∧ q.2 < k))).length =
            ((textsAt (a ++ (x, k) :: b) (p + 1)).length +
              (min k (p + 1 + rest.length) - (p + 1) +
                (a.filter (fun q => decide (p + 2 ≤ q.2 ∧ q.2 ≤ k))).length +
                (b.filter (fun q => decide (p + 2 ≤ q.2 ∧ q.2 < k))).length)) +
              1 := by
          rw [htexts, hsa, hsb]
          simp only [List.length_cons]
          omega
        rw [hidx]
        simp only [weave, List.getElem?_cons_succ]
        rw [List.getElem?_append_right (Nat.le_add_right _ _)]
        rw [Nat.add_sub_cancel_left]
        have hbound2 : ∀ q ∈ a ++ (x, k) :: b, q.2 ≤ (p + 1) + rest.length + 1 := by
          intro q hq
          have := hbound q hq
          simp only [List.length_cons] at this
          omega
        exact ih (p + 1) hk2 hbound2

/-- The original lines survive the weaving unchanged and in order. -/
theorem weave_sublist (ins : List (String × Nat)) (lines : List String) (p : Nat) :
    List.Sublist lines (weave ins lines p) := by
  induction lines generalizing p with
  | nil => exact List.nil_sublist _
  | cons l rest ih =>
      exact List.Sublist.cons₂ l
        ((ih (p + 1)).trans (List.sublist_append_right _ _))

/-- Splitting the texts-from-`k` slice at its lowest target. -/
theorem textsAt_append_textsFrom (ins : List (String × Nat)) (k : Nat) :
    (textsAt ins k ++ textsFrom ins (k + 1)).Perm (textsFrom ins k) := by
  unfold textsAt textsFrom
  rw [← List.map_append]
  apply List.Perm.map
  have hsplit := List.filter_append_perm
    (fun q : String × Nat => q.2 == k)
    (ins.filter (fun q => decide (k ≤ q.2)))
  rw [List.filter_filter, List.filter_filter] at hsplit
  have e1 : ins.filter (fun a => (a.2 == k) && decide (k ≤ a.2)) =
      ins.filter (fun q => q.2 == k) := by
    apply List.filter_congr
    intro q _
    rw [beq_nat_eq_decide]
    by_cases h : q.2 = k
    · simp [h]
    · simp [h]
  have e2 : ins.filter (fun a => (!(a.2 == k)) && decide (k ≤ a.2)) =
      ins.filter (fun q => decide (k + 1 ≤ q.2)) := by
    apply List.filter_congr
    intro q _
    rw [beq_nat_eq_decide]
    by_cases h : q.2 = k
    · have h2 : ¬ (k + 1 ≤ q.2) := by omega
      simp [h, h2]
    · by_cases h3 : k ≤ q.2
      · have h4 : k + 1 ≤ q.2 := by omega
        simp [h, h3, h4]
      · have h4 : ¬ (k + 1 ≤ q.2) := by omega
        simp [h, h3, h4]
  rw [e1, e2] at hsplit
  exact hsplit

/-- The woven output is, up to order, the original lines together with the
texts of the insertions whose targets fall in the woven range. -/
theorem weave_perm (ins : List (String × Nat)) (lines : List String) (p : Nat) :
    (weave ins lines p).Perm (lines ++ textsFrom ins (p + 1)) := by
  induction lines generalizing p with
  | nil => exact List.Perm.refl _
  | cons l rest ih =>
      simp only [weave, List.cons_append]
      apply List.Perm.cons
      have h1 : (textsAt ins (p + 1) ++ weave ins rest (p + 1)).Perm
          (textsAt ins (p + 1) ++ (rest ++ textsFrom ins (p + 2))) :=
        List.Perm.append_left _ (ih (p + 1))
      have h2 : (textsAt ins (p + 1) ++ (rest ++ textsFrom ins (p + 2))).Perm
          (rest ++ (textsAt ins (p + 1) ++ textsFrom ins (p + 2))) := by
        rw [← List.append_assoc, ← List.append_assoc]
        exact List.Perm.append_right _ List.perm_append_comm
      have h3 : (rest ++ (textsAt ins (p + 1) ++ textsFrom ins (p + 2))).Perm
          (rest ++ textsFrom ins (p + 1)) :=
        List.Perm.append_left _ (textsAt_append_textsFrom ins (p + 1))
      exact (h1.trans h2).trans h3

/-- Joining at least two lines never yields the empty string. -/
theorem joinLines_ne_empty {L : List String} (h : 2 ≤ L.length) :
    joinLines L ≠ "" := by
  match L, h with
  | l :: l2 :: ls, _ =>
      intro hc
      have hlen := congrArg String.length hc
      rw [joinLines] at hlen
      simp [String.length_append] at hlen
      exact absurd hlen.1.2 (by decide)

/-- Validated batches have all their converted targets in `[1, n + 1]`. -/
theorem toNatIns_bounds {ins : List (String × Int)} {n : Nat}
    (h : ins.all (fun p => validPos n p.2) = true) :
    ∀ q ∈ toNatIns ins, 1 ≤ q.2 ∧ q.2 ≤ n + 1 := by
  intro q hq
  rcases List.mem_map.mp hq with ⟨r, hr, hrq⟩
  have hv := List.all_eq_true.mp h r hr
  rw [validPos, decide_eq_true_eq] at hv
  subst hrq
  simp only
  omega

/-- On a validated batch over non-empty raw text, `insert_lines` takes its
success path and returns the woven lines, joined. -/
theorem insert_lines_eq_weave (raw : String) (ins : List (String × Int))
    (h1 : splitlines raw ≠ [])
    (h2 : ins.all (fun p => validPos (splitlines raw).length p.2) = true) :
    BaseParallelizer.insert_lines raw ins =
      joinLines (weave (toNatIns ins) (splitlines raw) 0) := by
  have hempty : (splitlines raw).isEmpty = false := by
    rw [← Bool.not_eq_true, List.isEmpty_iff]
    exact h1
  unfold BaseParallelizer.insert_lines
  simp [hempty, h2]

/-- The worked example document of the repository test suite
(`SIMPLE_RAW_CODE` in src/tests/pragcc_parallelizer.py). -/
def SIMPLE_RAW_CODE : String :=
  "0\n1 int main()\x7b\n2    for(int i; i < 10; ++i)\x7b\n3\n4    \x7d\n5 \x7d\n"

/-! ### Claim theorems -/

/-- Claim C1: for every non-empty raw text, a batch containing at least one
insertion whose target position is invalid (negative, zero, or beyond line
count + 1) is rejected as a whole: `insert_lines` returns the empty failure
sentinel instead of raising a fault, and none of the entries of the batch,
valid ones included, is inserted into any output. -/
theorem claim1_invalid_batch_rejected (raw : String) (ins : List (String × Int))
    (h1 : splitlines raw ≠ [])
    (h2 : ins.any (fun p => !validPos (splitlines raw).length p.2) = true) :
    BaseParallelizer.insert_lines raw ins = "" := by
  have hempty : (splitlines raw).isEmpty = false := by
    rw [← Bool.not_eq_true, List.isEmpty_iff]
    exact h1
  have hall : ins.all (fun p => validPos (splitlines raw).length p.2) = false := by
    rcases List.any_eq_true.mp h2 with ⟨q, hq, hnq⟩
    have hnq2 : validPos (splitlines raw).length q.2 = false := by
      simpa using hnq
    rw [← Bool.not_eq_true, List.all_eq_true]
    intro hforall
    exact absurd (hforall q hq) (by simp [hnq2])
  unfold BaseParallelizer.insert_lines
  simp [hempty, hall]

/-- Witness for C1 at the test suite's document and half-valid batch. -/
theorem claim1_witness :
    splitlines SIMPLE_RAW_CODE ≠ [] ∧
      BaseParallelizer.insert_lines SIMPLE_RAW_CODE
        [("First insertion", 1), ("Second insertion", -2)] = "" :=
  ⟨by decide, claim1_invalid_batch_rejected SIMPLE_RAW_CODE
    [("First insertion", 1), ("Second insertion", -2)] (by decide) (by decide)⟩

/-- Claim C4: insertion into empty raw text always fails with the empty
failure sentinel, whatever the insertion list. -/
theorem claim4_empty_raw_always_fails (ins : List (String × Int)) :
    BaseParallelizer.insert_lines "" ins = "" := rfl

/-- Claim C9: the compiler endpoint answers the success message with status
200 exactly when the compile checker reports empty diagnostics for the
submitted code, and the diagnostics with status 400 exactly when they are
non-empty. -/
theorem claim9_gcc_endpoint (compile_raw_code : String → String × String)
    (raw_c_code : String) :
    (gccPost compile_raw_code raw_c_code =
        (RespBody.msg "Compilation successfull !!", 200) ↔
      (compile_raw_code raw_c_code).2 = "") ∧
    (gccPost compile_raw_code raw_c_code =
        (RespBody.diag (compile_raw_code raw_c_code).2, 400) ↔
      (compile_raw_code raw_c_code).2 ≠ "") := by
  unfold gccPost
  by_cases h : (compile_raw_code raw_c_code).2 = "" <;> simp [h]

/-- Claim C7: invoking any of the three abstract capabilities on the base
parallelizer (without a concrete dialect variant) fails with the
not-implemented-capability error, while the shared concrete `insert_lines`
remains available: on validated non-empty input it produces a non-sentinel
result rather than failing. -/
theorem claim7_abstract_capabilities :
    (∀ d c, BaseParallelizer.get_raw_pragma d c =
      .error PErr.notImplementedCapability) ∧
    (∀ f ds, BaseParallelizer.insert_directives f ds =
      .error PErr.notImplementedCapability) ∧
    (∀ m, BaseParallelizer.parallelize m =
      .error PErr.notImplementedCapability) ∧
    (∀ raw ins, splitlines raw ≠ [] → ins ≠ [] →
      ins.all (fun p => validPos (splitlines raw).length p.2) = true →
      BaseParallelizer.insert_lines raw ins ≠ "") := by
  refine ⟨fun _ _ => rfl, fun _ _ => rfl, fun _ => rfl, ?_⟩
  intro raw ins h1 h2 h3
  rw [insert_lines_eq_weave raw ins h1 h3]
  apply joinLines_ne_empty
  have hperm := weave_perm (toNatIns ins) (splitlines raw) 0
  simp only [Nat.zero_add] at hperm
  have hlen := hperm.length_eq
  rw [List.length_append] at hlen
  have htf : textsFrom (toNatIns ins) 1 = (toNatIns ins).map Prod.fst := by
    unfold textsFrom
    congr 1
    apply List.filter_eq_self.mpr
    intro q hq
    have hb := toNatIns_bounds h3 q hq
    simp only [decide_eq_true_eq]
    omega
  rw [htf] at hlen
  have hl1 : 0 < (splitlines raw).length := List.length_pos.mpr h1
  have hl2 : 0 < ins.length := List.length_pos.mpr h2
  have hl3 : ((toNatIns ins).map Prod.fst).length = ins.length := by
    rw [List.length_map]
    unfold toNatIns
    rw [List.length_map]
  omega

/-- Witness for C7 at concrete capability calls and a concrete valid
insertion. -/
theorem claim7_witness :
    BaseParallelizer.get_raw_pragma "parallel" [] =
      .error PErr.notImplementedCapability ∧
    BaseParallelizer.insert_directives "some_function" [] =
      .error PErr.notImplementedCapability ∧
    BaseParallelizer.parallelize [] = .error PErr.notImplementedCapability ∧
    BaseParallelizer.insert_lines SIMPLE_RAW_CODE [("First insertion", 1)] ≠ "" :=
  ⟨claim7_abstract_capabilities.1 "parallel" [],
   claim7_abstract_capabilities.2.1 "some_function" [],
   claim7_abstract_capabilities.2.2.1 [],
   claim7_abstract_capabilities.2.2.2 SIMPLE_RAW_CODE [("First insertion", 1)]
     (by decide) (by decide) (by decide)⟩

/-- Claim C2: on a non-empty N-line raw text and a batch whose targets all
lie within [1, N+1] (append allowed at N+1), `insert_lines` succeeds with the
woven output, and the i-th insertion of the batch is placed at the position
implied by cumulative downward shift: its (end-clamped) target gap plus one
slot for each insertion applied before it under the ascending-target order —
those with a strictly smaller target anywhere in the batch, and those with
the same target supplied earlier. -/
theorem claim2_valid_batch_placement (raw : String) (ins : List (String × Int))
    (h1 : splitlines raw ≠ [])
    (h2 : ins.all (fun p => validPos (splitlines raw).length p.2) = true) :
    BaseParallelizer.insert_lines raw ins =
      joinLines (weave (toNatIns ins) (splitlines raw) 0) ∧
    ∀ i (hi : i < ins.length),
      (weave (toNatIns ins) (splitlines raw) 0)[
        min (ins.get ⟨i, hi⟩).2.toNat (splitlines raw).length +
          (((toNatIns ins).take i).filter
            (fun q => decide (q.2 ≤ (ins.get ⟨i, hi⟩).2.toNat))).length +
          (((toNatIns ins).drop (i + 1)).filter
            (fun q => decide (q.2 < (ins.get ⟨i, hi⟩).2.toNat))).length]? =
        some (ins.get ⟨i, hi⟩).1 := by
  refine ⟨insert_lines_eq_weave raw ins h1 h2, ?_⟩
  intro i hi
  have hvb := toNatIns_bounds h2
  set n := (splitlines raw).length with hn
  set k := (ins.get ⟨i, hi⟩).2.toNat with hk
  set x := (ins.get ⟨i, hi⟩).1 with hx
  have hilen : i < (toNatIns ins).length := by
    unfold toNatIns
    rw [List.length_map]
    exact hi
  have hgeti : (toNatIns ins)[i] = (x, k) := by
    unfold toNatIns
    rw [List.getElem_map, hx, hk]
    rw [List.get_eq_getElem]
  have hdec : toNatIns ins =
      (toNatIns ins).take i ++ (x, k) :: (toNatIns ins).drop (i + 1) := by
    conv_lhs => rw [← List.take_append_drop i (toNatIns ins)]
    congr 1
    rw [List.drop_eq_getElem_cons hilen, hgeti]
  have hkb : 1 ≤ k ∧ k ≤ n + 1 := by
    apply hvb (x, k)
    rw [← hgeti]
    exact List.getElem_mem hilen
  have hmain := weave_get (splitlines raw) 0 ((toNatIns ins).take i)
    ((toNatIns ins).drop (i + 1)) x k (by omega)
    (by
      rw [← hdec]
      intro q hq
      have := hvb q hq
      omega)
  have e1 : ((toNatIns ins).take i).filter
      (fun q => decide (0 + 1 ≤ q.2 ∧ q.2 ≤ k)) =
      ((toNatIns ins).take i).filter (fun q => decide (q.2 ≤ k)) := by
    apply List.filter_congr
    intro q hq
    have := hvb q (List.take_subset _ _ hq)
    exact decide_eq_decide.mpr (by omega)
  have e2 : ((toNatIns ins).drop (i + 1)).filter
      (fun q => decide (0 + 1 ≤ q.2 ∧ q.2 < k)) =
      ((toNatIns ins).drop (i + 1)).filter (fun q => decide (q.2 < k)) := by
    apply List.filter_congr
    intro q hq
    have := hvb q (List.drop_subset _ _ hq)
    exact decide_eq_decide.mpr (by omega)
  have e3 : min k (0 + n) - 0 = min k n := by omega
  rw [← hdec, e1, e2, e3] at hmain
  exact hmain

/-- Witness for C2 at the test suite's document and batch: the first
insertion (target 1) lands at output index 1 and the second (target 2, one
accumulated shift) at output index 3. -/
theorem claim2_witness :
    (weave (toNatIns [("First insertion", 1), ("Second insertion", 2)])
        (splitlines SIMPLE_RAW_CODE) 0)[1]? = some "First insertion" ∧
    (weave (toNatIns [("First insertion", 1), ("Second insertion", 2)])
        (splitlines SIMPLE_RAW_CODE) 0)[3]? = some "Second insertion" := by
  have h := claim2_valid_batch_placement SIMPLE_RAW_CODE
    [("First insertion", 1), ("Second insertion", 2)] (by decide) (by decide)
  constructor
  · have h0 := h.2 0 (by decide)
    convert h0 using 2
  · have h1 := h.2 1 (by decide)
    convert h1 using 2

/-- Claim C10: on every successful `insert_lines` call the original lines
are all preserved unchanged and in their original relative order (they form
a sublist of the output), and the output is exactly the original lines with
the batch's inserted texts interposed (a permutation of their
concatenation): no original content is modified, dropped or reordered. -/
theorem claim10_frame (raw : String) (ins : List (String × Int))
    (h1 : splitlines raw ≠ [])
    (h2 : ins.all (fun p => validPos (splitlines raw).length p.2) = true) :
    BaseParallelizer.insert_lines raw ins =
      joinLines (weave (toNatIns ins) (splitlines raw) 0) ∧
    List.Sublist (splitlines raw) (weave (toNatIns ins) (splitlines raw) 0) ∧
    (weave (toNatIns ins) (splitlines raw) 0).Perm
      (splitlines raw ++ ins.map Prod.fst) := by
  refine ⟨insert_lines_eq_weave raw ins h1 h2, weave_sublist _ _ _, ?_⟩
  have hperm := weave_perm (toNatIns ins) (splitlines raw) 0
  simp only [Nat.zero_add] at hperm
  have htf : textsFrom (toNatIns ins) 1 = ins.map Prod.fst := by
    unfold textsFrom
    have hfe : (toNatIns ins).filter (fun q => decide (1 ≤ q.2)) =
        toNatIns ins := by
      apply List.filter_eq_self.mpr
      intro q hq
      have := toNatIns_bounds h2 q hq
      simp only [decide_eq_true_eq]
      omega
    rw [hfe]
    unfold toNatIns
    rw [List.map_map]
    rfl
  rw [htf] at hperm
  exact hperm

/-- Witness for C10 at a concrete valid single insertion. -/
theorem claim10_witness :
    BaseParallelizer.insert_lines SIMPLE_RAW_CODE [(("New line" : String), (3 : Int))] =
      joinLines (weave (toNatIns [(("New line" : String), (3 : Int))])
        (splitlines SIMPLE_RAW_CODE) 0) ∧
    List.Sublist (splitlines SIMPLE_RAW_CODE)
      (weave (toNatIns [(("New line" : String), (3 : Int))])
        (splitlines SIMPLE_RAW_CODE) 0) ∧
    (weave (toNatIns [(("New line" : String), (3 : Int))])
        (splitlines SIMPLE_RAW_CODE) 0).Perm
      (splitlines SIMPLE_RAW_CODE ++
        [(("New line" : String), (3 : Int))].map Prod.fst) :=
  claim10_frame SIMPLE_RAW_CODE [("New line", 3)] (by decide) (by decide)

/-! ### Structural soundness of the section recognizer -/

/-- A run accepted from inside the main section consists of body lines. -/
theorem structureOk_inMain {ls : List CLine}
    (h : structureOk ls .inMain = true) : ∀ l ∈ ls, isBody l = true := by
  induction ls with
  | nil =>
      intro l hl
      cases hl
  | cons a ls ih =>
      rw [structureOk] at h
      by_cases hb : isBody a = true
      · rw [if_pos hb] at h
        intro l hl
        rcases List.mem_cons.mp hl with rfl | hl
        · exact hb
        · exact ih h l hl
      · rw [if_neg hb] at h
        cases h

/-- A run accepted from inside the function region decomposes into trailing
body lines of the current function, further function blocks, and a final
main section. -/
theorem structureOk_inFuncs {ls : List CLine}
    (h : structureOk ls .inFuncs = true) :
    ∃ b f mb, ls = b ++ f ++ (CLine.mainHeader :: mb) ∧
      (∀ l ∈ b, isBody l = true) ∧ FuncBlocks f ∧
      (∀ l ∈ mb, isBody l = true) := by
  induction ls with
  | nil => simp [structureOk] at h
  | cons a ls ih =>
      cases a with
      | inc hdr => simp [structureOk, isBody] at h
      | defn t => simp [structureOk, isBody] at h
      | fnHeader n =>
          simp only [structureOk, isBody, Bool.false_eq_true, if_false] at h
          rcases ih h with ⟨b, f, mb, heq, hbody, hf, hmb⟩
          refine ⟨[], CLine.fnHeader n :: (b ++ f), mb, ?_, ?_, ?_, hmb⟩
          · rw [heq]
            simp
          · intro l hl
            cases hl
          · exact FuncBlocks.block n b f hbody hf
      | mainHeader =>
          simp only [structureOk, isBody, Bool.false_eq_true, if_false] at h
          exact ⟨[], [], ls, by simp, (by intro l hl; cases hl), FuncBlocks.nil,
            structureOk_inMain h⟩
      | loopHeader t =>
          simp only [structureOk, isBody, if_true] at h
          rcases ih h with ⟨b, f, mb, heq, hbody, hf, hmb⟩
          refine ⟨CLine.loopHeader t :: b, f, mb, by rw [heq]; rfl, ?_, hf, hmb⟩
          intro l hl
          rcases List.mem_cons.mp hl with rfl | hl
          · rfl
          · exact hbody l hl
      | boolStmt t =>
          simp only [structureOk, isBody, if_true] at h
          rcases ih h with ⟨b, f, mb, heq, hbody, hf, hmb⟩
          refine ⟨CLine.boolStmt t :: b, f, mb, by rw [heq]; rfl, ?_, hf, hmb⟩
          intro l hl
          rcases List.mem_cons.mp hl with rfl | hl
          · rfl
          · exact hbody l hl
      | stmt t =>
          simp only [structureOk, isBody, if_true] at h
          rcases ih h with ⟨b, f, mb, heq, hbody, hf, hmb⟩
          refine ⟨CLine.stmt t :: b, f, mb, by rw [heq]; rfl, ?_, hf, hmb⟩
          intro l hl
          rcases List.mem_cons.mp hl with rfl | hl
          · rfl
          · exact hbody l hl

/-- A run accepted from inside the prologue decomposes into the remaining
prologue, function blocks, and a final main section. -/
theorem structureOk_inProl {ls : List CLine}
    (h : structureOk ls .inProl = true) :
    ∃ p f mb, ls = p ++ f ++ (CLine.mainHeader :: mb) ∧
      (∀ l ∈ p, isPrologueLine l = true) ∧ FuncBlocks f ∧
      (∀ l ∈ mb, isBody l = true) := by
  induction ls with
  | nil => simp [structureOk] at h
  | cons a ls ih =>
      cases a with
      | inc hdr =>
          simp only [structureOk, isPrologueLine, if_true] at h
          rcases ih h with ⟨p, f, mb, heq, hprol, hf, hmb⟩
          refine ⟨CLine.inc hdr :: p, f, mb, by rw [heq]; rfl, ?_, hf, hmb⟩
          intro l hl
          rcases List.mem_cons.mp hl with rfl | hl
          · rfl
          · exact hprol l hl
      | defn t =>
          simp only [structureOk, isPrologueLine, if_true] at h
          rcases ih h with ⟨p, f, mb, heq, hprol, hf, hmb⟩
          refine ⟨CLine.defn t :: p, f, mb, by rw [heq]; rfl, ?_, hf, hmb⟩
          intro l hl
          rcases List.mem_cons.mp hl with rfl | hl
          · rfl
          · exact hprol l hl
      | fnHeader n =>
          simp only [structureOk, isPrologueLine, Bool.false_eq_true,
            if_false] at h
          rcases structureOk_inFuncs h with ⟨b, f, mb, heq, hbody, hf, hmb⟩
          refine ⟨[], CLine.fnHeader n :: (b ++ f), mb, ?_, ?_, ?_, hmb⟩
          · rw [heq]
            simp
          · intro l hl
            cases hl
          · exact FuncBlocks.block n b f hbody hf
      | mainHeader =>
          simp only [structureOk, isPrologueLine, Bool.false_eq_true,
            if_false] at h
          exact ⟨[], [], ls, by simp, (by intro l hl; cases hl), FuncBlocks.nil,
            structureOk_inMain h⟩
      | loopHeader t => simp [structureOk, isPrologueLine] at h
      | boolStmt t => simp [structureOk, isPrologueLine] at h
      | stmt t => simp [structureOk, isPrologueLine] at h

/-- Soundness of the recognizer against the declarative decomposition. -/
theorem structureOk_sound {ls : List CLine}
    (h : structureOk ls .atStart = true) : canDecompose ls := by
  cases ls with
  | nil => simp [structureOk] at h
  | cons a ls =>
      by_cases hp : isPrologueLine a = true
      · rw [structureOk, if_pos hp] at h
        rcases structureOk_inProl h with ⟨p, f, mb, heq, hprol, hf, hmb⟩
        refine ⟨a :: p, f, mb, by rw [heq]; rfl, by simp, ?_, hf, hmb⟩
        intro l hl
        rcases List.mem_cons.mp hl with rfl | hl
        · exact hp
        · exact hprol l hl
      · rw [structureOk, if_neg hp] at h
        cases h

/-- Claim C5: whenever the canonical section ordering (non-empty prologue,
zero or more functions, exactly one trailing main) cannot be identified in
the document, `parse` fails with the malformed-source error (surfacing as an
IndexError in the concrete code). -/
theorem claim5_malformed (ls : List CLine) (h : ¬ canDecompose ls) :
    parse ls = .error PErr.malformedSource := by
  by_cases hs : structureOk ls .atStart = true
  · exact absurd (structureOk_sound hs) h
  · unfold parse
    rw [if_neg hs]

/-- Witness for C5: a bare function body with no separable prologue or main
fails the parse with the malformed-source error. -/
theorem claim5_witness :
    parse [CLine.stmt "x = 1;", CLine.stmt "return 0;"] =
      .error PErr.malformedSource :=
  claim5_malformed _ (by
    rintro ⟨p, f, mb, heq, hpne, hprol, hf, hmb⟩
    cases p with
    | nil => exact hpne rfl
    | cons a p =>
        simp only [List.cons_append] at heq
        injection heq with h1 h2
        have h3 := hprol a (List.mem_cons_self a p)
        rw [← h1] at h3
        simp [isPrologueLine] at h3)

/-! ### Preprocessing boundary, atomicity and non-idempotence -/

/-- After the placeholder substitution, the boolean type is available exactly
when its header appears at or after the third include of the document. -/
theorem boolAvailable_iff (ls : List CLine) :
    boolAvailable ls = true ↔ "stdbool.h" ∈ (includesOf ls).drop 2 := by
  unfold boolAvailable fakeIncludes
  rw [List.contains, List.elem_iff, List.mem_append]
  constructor
  · rintro (hm | hm)
    · have h2 := List.take_subset _ _ hm
      simp at h2
    · exact hm
  · intro hm
    exact Or.inr hm

/-- A document whose body uses the boolean type, with its providing header
as the third include: the substitution leaves the header intact. -/
def boolThirdDoc : List CLine :=
  [.inc "stdio.h", .inc "stdlib.h", .inc "stdbool.h", .mainHeader,
   .boolStmt "bool b = true;", .stmt "\x7d"]

/-- The same document with the bool-providing header within the first two
includes: the substitution replaces it with a placeholder. -/
def boolFirstDoc : List CLine :=
  [.inc "stdbool.h", .inc "stdio.h", .mainHeader,
   .boolStmt "bool b = true;", .stmt "\x7d"]

/-- Counterexample to C3 as stated: the document with the bool-providing
header as its third include parses successfully (no unsupported-type
failure), and the document with that header within the first two includes
fails — the opposite of the claim in both directions, and exactly what the
repository's bool-type tests assert. -/
theorem claim3_counterexample :
    parse boolThirdDoc = .ok ⟨boolThirdDoc⟩ ∧
      parse boolFirstDoc = .error PErr.unsupportedType :=
  ⟨rfl, rfl⟩

/-- Claim C3 (amended): for a structurally well-formed document whose body
uses the boolean type, `parse` fails with the unsupported-type error exactly
when the bool-providing header does NOT appear at or after the third include
— the first-two-includes substitution replaces it with a placeholder that
does not supply the type — and succeeds exactly when the header sits at or
after the third include, out of the substitution's reach. -/
theorem claim3_amended (ls : List CLine)
    (h1 : structureOk ls .atStart = true) (h2 : usesBool ls = true) :
    (parse ls = .error PErr.unsupportedType ↔
      "stdbool.h" ∉ (includesOf ls).drop 2) ∧
    (parse ls = .ok ⟨ls⟩ ↔ "stdbool.h" ∈ (includesOf ls).drop 2) := by
  unfold parse
  rw [if_pos h1, h2]
  by_cases hb : boolAvailable ls = true
  · rw [hb]
    have hmem := (boolAvailable_iff ls).mp hb
    simp [hmem]
  · have hb2 : boolAvailable ls = false := by simpa using hb
    rw [hb2]
    have hmem : "stdbool.h" ∉ (includesOf ls).drop 2 :=
      fun hm => hb ((boolAvailable_iff ls).mpr hm)
    simp [hmem]

/-- Witness for the amended C3: with the bool header as first include the
parse fails with the unsupported-type error. -/
theorem claim3_amended_witness :
    parse boolFirstDoc = .error PErr.unsupportedType :=
  (claim3_amended boolFirstDoc (by decide) (by decide)).1.mpr (by decide)

/-- A concrete well-formed document: one include, a main with one loop. -/
def exDoc : SourceDocument :=
  ⟨[.inc "stdio.h", .mainHeader,
    .loopHeader "for (i = 0; i < 10; i = i + 1) \x7b", .stmt "\x7d", .stmt "\x7d"]⟩

/-- Concrete metadata: one parallel-for directive at main's first loop. -/
def exMd : Metadata := [("main", [⟨"parallel for", [], .loopOffset 0⟩])]

/-- Claim C6: `parallelize` accumulates one insertion batch across all
directive specs and submits it atomically to the insertion engine: once the
resolution yields batch `b`, the call fails with the parallelization-failed
error exactly when the engine reports its sentinel batch failure, and any
successful output is the engine's output on the whole batch — no partial
output is ever surfaced. -/
theorem claim6_atomic_parallelize (d : SourceDocument) (md : Metadata)
    (batch : List (String × Int))
    (hres : OpenMP.resolveBatch d md = .ok batch) :
    (OpenMP.parallelize d md = .error PErr.parallelizationFailed ↔
      BaseParallelizer.insert_lines (rawOf d) batch = "") ∧
    ∀ s, OpenMP.parallelize d md = .ok s →
      s = BaseParallelizer.insert_lines (rawOf d) batch ∧ s ≠ "" := by
  unfold OpenMP.parallelize
  rw [hres]
  by_cases h : BaseParallelizer.insert_lines (rawOf d) batch = "" <;> simp [h]

/-- The output of the first parallelization of `exDoc`. -/
def exOut1 : String :=
  "#include <stdio.h>\nint main() \x7b\n#pragma omp parallel for\nfor (i = 0; i < 10; i = i + 1) \x7b\n\x7d\n\x7d"

/-- The output of parallelizing the re-parsed `exOut1` again. -/
def exOut2 : String :=
  "#include <stdio.h>\nint main() \x7b\n#pragma omp parallel for\n#pragma omp parallel for\nfor (i = 0; i < 10; i = i + 1) \x7b\n\x7d\n\x7d"

/-- Witness for C6 at the concrete document and metadata: the resolved
one-element batch succeeds and the returned text is the engine's output. -/
theorem claim6_witness :
    exOut1 = BaseParallelizer.insert_lines (rawOf exDoc)
        [("#pragma omp parallel for", (2 : Int))] ∧ exOut1 ≠ "" :=
  (claim6_atomic_parallelize exDoc exMd
      [("#pragma omp parallel for", (2 : Int))] rfl).2 exOut1 rfl

/-- The number of parallel-for pragma lines of a rendered text. -/
def pragmaCount (s : String) : Nat :=
  (splitlines s).count "#pragma omp parallel for"

/-- The re-parse of `exOut1`: the inserted pragma reads back as a plain body
statement ahead of the loop. -/
def exDoc2 : SourceDocument :=
  ⟨[.inc "stdio.h", .mainHeader, .stmt "#pragma omp parallel for",
    .loopHeader "for (i = 0; i < 10; i = i + 1) \x7b", .stmt "\x7d", .stmt "\x7d"]⟩

/-- Claim C8: parallelization is not idempotent — for this concrete document
and metadata, parallelizing, re-parsing the rendered output and
parallelizing again with the same metadata duplicates the pragma, so the
second result differs from the first. -/
theorem claim8_not_idempotent :
    OpenMP.parallelize exDoc exMd = .ok exOut1 ∧
    OpenMP.init exOut1 = .ok exDoc2 ∧
    OpenMP.parallelize exDoc2 exMd = .ok exOut2 ∧
    exOut2 ≠ exOut1 ∧ pragmaCount exOut1 = 1 ∧ pragmaCount exOut2 = 2 :=
  ⟨rfl, rfl, rfl, by decide, by decide, by decide⟩

end Pragcc
